import Mathlib

/-!
Verification development for the topic discovery and statistics engine of the
TopicsStats plugin (TopicsStats.cc) and its search/filter helpers.

The embedding below is a shallow translation of the C++ source:
- `BasicStats`, `onMessage`, `resetStats` model the per-topic counter record
  and the methods `TopicsStats::OnMessage` / `TopicsStats::ResetStats`.
  The `uint64_t` counters are modelled as `Nat` reduced modulo `2 ^ 64`.
  The three `QStandardItem` pointers stored next to the counters are GUI
  handles with no effect on the counter semantics and are not modelled.
- `fillTopics` models one reconcile cycle, `TopicsStats::FillTopics`:
  remove topics that disappeared (unsubscribe + erase), then add new topics
  (subscribe, on success create a zeroed entry), then reset the windowed
  counters, then replace the remembered topic list with the freshly listed
  one.  The result of each `Subscribe` call is an input (`subOk`), since it
  is decided by the transport.  `std::map<std::string, BasicStats>` is
  modelled as an association list with the usual unique-key map semantics.
- `fillTopicsEvents` / `lockHeldAt` model the order of observable actions in
  `FillTopics`: the `TopicList` call, the `lock_guard` acquisition, every
  `Unsubscribe` and `Subscribe` call, and the release at function exit.
- `topicsStatsDestruct` models the destructor `TopicsStats::~TopicsStats`,
  whose body is empty in the source: it performs no bus calls and leaves the
  stats mapping to ordinary member destruction.
- `selectBandwidth` models the unit scaling in
  `TopicsStats::UpdateGUIStats`; the C++ `double` arithmetic is modelled
  with exact rationals (the conversion of a window byte count to `double`
  and both threshold comparisons are exact for realistic counts below
  `2 ^ 53`).
- `filterAcceptsRow` models `SearchModel::filterAcceptsRow` together with
  `filterAcceptsRowItself` (case-insensitive containment, modelled for the
  ASCII alphabet as the C `toupper` of the source does).
- `boldSpans` and `renderLoop` model the highlight computation of
  `ItemDelegate::paint`: the `std::map<size_t, size_t>` keyed by match start
  holding the longest match length at that start, and the left-to-right
  paint loop with its truncation of already-rendered overlaps.  The
  `std::map` is modelled directly by its contents in increasing key order;
  the C++ `while (pos != npos)` find loop enumerates exactly the occurrence
  positions of a word, which `wordOccursAt` reproduces pointwise.
-/

namespace GzGui

/-- ASCII upper-casing as performed by `::toupper` in the C locale and by
`QString::toUpper` on ASCII data: letters a-z map to A-Z, everything else is
unchanged. -/
def toUpperChar (c : Char) : Char :=
  if 97 ≤ c.toNat ∧ c.toNat ≤ 122 then Char.ofNat (c.toNat - 32) else c

/-- Occurrence test: does `needle` occur in `hay` starting at position `p`?
This is the test `std::string::find` answers for each candidate position. -/
def wordOccursAt (hay needle : List Char) (p : Nat) : Bool :=
  needle.isPrefixOf (hay.drop p)

/-- Substring test, the aggregate of `std::string::find` /
`QString::contains`: `needle` occurs somewhere in `hay`. -/
def containsSub (hay needle : List Char) : Bool :=
  (List.range (hay.length + 1)).any (fun i => needle.isPrefixOf (hay.drop i))

/-- Case-insensitive containment, as `QString::contains(word,
Qt::CaseInsensitive)` behaves on ASCII data. -/
def containsCI (label word : List Char) : Bool :=
  containsSub (label.map toUpperChar) (word.map toUpperChar)

/-- Split on the space character, keeping empty parts, as
`QString::split(" ")` does (Qt keeps empty parts by default; splitting the
empty string yields one empty part). -/
def splitOnSpace : List Char → List (List Char)
  | [] => [[]]
  | c :: rest =>
    if c = ' ' then [] :: splitOnSpace rest
    else
      match splitOnSpace rest with
      | [] => [[c]]
      | w :: ws => (c :: w) :: ws

/-- Row filter of `SearchModel::filterAcceptsRow`: an empty search matches
everything; otherwise the search is split on spaces and every non-empty word
must be contained (case-insensitively) in the row label, via
`filterAcceptsRowItself`. -/
def filterAcceptsRow (search label : List Char) : Bool :=
  if search.isEmpty then true
  else (splitOnSpace search).all (fun w => w.isEmpty || containsCI label w)

/-- Search words used by `ItemDelegate::paint`: the search string is
upper-cased, split on spaces, and empty words are skipped. -/
def paintWords (search : List Char) : List (List Char) :=
  (splitOnSpace (search.map toUpperChar)).filter (fun w => !w.isEmpty)

/-- Length recorded in the bold map of `ItemDelegate::paint` at start
position `p`: the maximum size over all search words occurring at `p`
(`bold[pos] = std::max(bold[pos], _word.size())`, starting from the
default-inserted 0). -/
def boldLenAt (utext : List Char) (uwords : List (List Char)) (p : Nat) : Nat :=
  uwords.foldl (fun m w => if wordOccursAt utext w p then max m w.length else m) 0

/-- Contents of the bold `std::map<size_t, size_t>` of `ItemDelegate::paint`
in increasing key order: one entry per position where some search word
occurs, holding the longest matching word length there. -/
def boldSpans (utext : List Char) (uwords : List (List Char)) : List (Nat × Nat) :=
  (List.range utext.length).filterMap
    (fun p => if boldLenAt utext uwords p = 0 then none else some (p, boldLenAt utext uwords p))

/-- The C++ `std::string::substr(pos, len)` on a character list. -/
def substrL (l : List Char) (pos len : Nat) : List Char :=
  (l.drop pos).take len

/-- Paint loop of `ItemDelegate::paint`: walks the bold entries left to
right, emitting a plain run then a bold run per entry, truncating a bold
entry that starts before the current render position (and dropping it when
it is entirely behind), and finally emitting the remaining plain text.  A
run is tagged `true` when painted with the bold font. -/
def renderLoop (text : List Char) : List (Nat × Nat) → Nat → List (Bool × List Char)
  | [], renderPos =>
    if renderPos < text.length then [(false, text.drop renderPos)] else []
  | (start, len) :: rest, renderPos =>
    if renderPos > start then
      if start + len > renderPos then
        (false, substrL text renderPos 0) ::
          (true, substrL text renderPos (start + len - renderPos)) ::
            renderLoop text rest (start + len)
      else renderLoop text rest renderPos
    else
      (false, substrL text renderPos (start - renderPos)) ::
        (true, substrL text start len) ::
          renderLoop text rest (start + len)

/-- Complete highlight computation of `ItemDelegate::paint` for one label:
compute the bold map from the search words and render from position 0. -/
def highlightRuns (search label : List Char) : List (Bool × List Char) :=
  renderLoop label (boldSpans (label.map toUpperChar) (paintWords search)) 0

/-- Concatenation of the rendered runs, i.e. the full text drawn by the
successive `drawText` calls. -/
def joinRuns (runs : List (Bool × List Char)) : List Char :=
  runs.foldr (fun r acc => r.2 ++ acc) []

/-- Per-topic counters of the private `BasicStats` record (the three
`QStandardItem` GUI pointers of the source record carry no counter
semantics and are omitted). -/
structure BasicStats where
  numMessages : Nat
  numMessagesLastSec : Nat
  numBytesLastSec : Nat
deriving DecidableEq

/-- Zero-initialised record, `BasicStats()`. -/
def BasicStats.init : BasicStats := ⟨0, 0, 0⟩

/-- The stats mapping `std::map<std::string, BasicStats>`, as an association
list with map semantics. -/
abbrev StatsMap := List (String × BasicStats)

/-- Map lookup, `stats.find(topic)`. -/
def statsLookup (m : StatsMap) (t : String) : Option BasicStats :=
  (m.find? (fun p => decide (p.1 = t))).map (fun p => p.2)

/-- Map erase by key, `stats.erase(topic)`. -/
def statsErase (m : StatsMap) (t : String) : StatsMap :=
  m.filter (fun p => !(decide (p.1 = t)))

/-- Map write `stats[topic] = v`: replace the entry when the key is present,
append a fresh entry otherwise. -/
def statsSet (m : StatsMap) (t : String) (v : BasicStats) : StatsMap :=
  if m.any (fun p => decide (p.1 = t)) then
    m.map (fun p => if p.1 = t then (t, v) else p)
  else m ++ [(t, v)]

/-- Counter update performed by `TopicsStats::OnMessage` on the entry of the
delivered topic; the `uint64_t` additions wrap modulo `2 ^ 64`. -/
def recordStats (s : BasicStats) (sz : Nat) : BasicStats :=
  ⟨(s.numMessages + 1) % 2 ^ 64,
   (s.numMessagesLastSec + 1) % 2 ^ 64,
   (s.numBytesLastSec + sz) % 2 ^ 64⟩

/-- Message callback `TopicsStats::OnMessage`: look the topic up; if it is
absent, log and return leaving the store untouched; otherwise bump the total
and windowed message counts and add the payload size to the windowed byte
count. -/
def onMessage (m : StatsMap) (topic : String) (sz : Nat) : StatsMap :=
  match statsLookup m topic with
  | none => m
  | some _ => m.map (fun p => if p.1 = topic then (p.1, recordStats p.2 sz) else p)

/-- Window reset of one entry, as the loop body of
`TopicsStats::ResetStats` performs it. -/
def resetEntry (s : BasicStats) : BasicStats :=
  ⟨s.numMessages, 0, 0⟩

/-- The whole `TopicsStats::ResetStats`: zero the windowed counters of every
entry. -/
def resetStats (m : StatsMap) : StatsMap :=
  m.map (fun p => (p.1, resetEntry p.2))

/-- Key list of the stats mapping. -/
def statsKeys (m : StatsMap) : List String :=
  m.map (fun p => p.1)

/-- State carried between reconcile cycles in `TopicsStatsPrivate`: the
stats mapping and the topic list remembered from the previous cycle
(`prevTopics`). -/
structure ReconcilerState where
  stats : StatsMap
  prevTopics : List String
deriving DecidableEq

/-- Initial `TopicsStatsPrivate` state: empty mapping, empty previous topic
list. -/
def initState : ReconcilerState := ⟨[], []⟩

/-- Removal loop of `TopicsStats::FillTopics`: every previous topic that is
no longer listed is unsubscribed and erased from the stats mapping. -/
def removePhase (m : StatsMap) (prev topics : List String) : StatsMap :=
  prev.foldl (fun s t => if t ∈ topics then s else statsErase s t) m

/-- Addition loop of `TopicsStats::FillTopics`: every listed topic that was
not previously listed is subscribed; when `Subscribe` returns false the
topic is skipped, otherwise a zeroed stats entry is created for it. -/
def addPhase (m : StatsMap) (prev topics : List String) (subOk : String → Bool) : StatsMap :=
  topics.foldl
    (fun s t => if t ∈ prev then s else if subOk t then statsSet s t BasicStats.init else s) m

/-- One reconcile cycle, `TopicsStats::FillTopics`: list the topics, remove
the expired ones, add the new ones, refresh the GUI (no effect on the
counters), reset the windowed counters, and remember the listed topics as
`prevTopics` for the next cycle. -/
def fillTopics (st : ReconcilerState) (topics : List String) (subOk : String → Bool) :
    ReconcilerState :=
  ⟨resetStats (addPhase (removePhase st.stats st.prevTopics topics) st.prevTopics topics subOk),
   topics⟩

/-- Topics for which the addition loop calls `Subscribe` during a cycle
(the call happens whether or not it succeeds): the listed topics absent from
the previous list, in listing order. -/
def subscribeAttempts (prev topics : List String) : List String :=
  topics.filter (fun t => !(decide (t ∈ prev)))

/-- Topics for which the removal loop calls `Unsubscribe` during a cycle:
the previous topics absent from the fresh list, in previous-list order. -/
def unsubscribeCalls (prev topics : List String) : List String :=
  prev.filter (fun t => !(decide (t ∈ topics)))

/-- Run of the periodic timer: a sequence of reconcile cycles, each given
the topic list returned by `TopicList` and the outcomes of the `Subscribe`
calls of that cycle. -/
def runCycles (st : ReconcilerState) (cycles : List (List String × (String → Bool))) :
    ReconcilerState :=
  cycles.foldl (fun s c => fillTopics s c.1 c.2) st

/-- Observable actions of `TopicsStats::FillTopics`, in program order: the
`TopicList` query, the mutex acquisition and release, and the bus calls. -/
inductive BusEv where
  | listTopics : BusEv
  | acquire : BusEv
  | unsub : String → BusEv
  | sub : String → BusEv
  | release : BusEv
deriving DecidableEq

/-- Action trace of one `FillTopics` call: `TopicList` runs first (line
477), the `lock_guard` is constructed next (line 479), then the removal
loop's `Unsubscribe` calls (line 490), then the addition loop's `Subscribe`
calls (line 507), and the lock is released when the function returns. -/
def fillTopicsEvents (prev topics : List String) : List BusEv :=
  [BusEv.listTopics, BusEv.acquire]
    ++ (unsubscribeCalls prev topics).map BusEv.unsub
    ++ (subscribeAttempts prev topics).map BusEv.sub
    ++ [BusEv.release]

/-- Lock state transition of a single action. -/
def lockStep (b : Bool) (e : BusEv) : Bool :=
  match e with
  | BusEv.acquire => true
  | BusEv.release => false
  | _ => b

/-- Whether the stats mutex is held when the action at index `i` of the
trace executes. -/
def lockHeldAt (evs : List BusEv) (i : Nat) : Bool :=
  (evs.take i).foldl lockStep false

/-- The destructor `TopicsStats::~TopicsStats` (lines 371-373): its body is
empty, so it performs no bus calls and leaves the stats mapping and the
previous topic list untouched for plain member destruction. -/
def topicsStatsDestruct (st : ReconcilerState) : ReconcilerState × List BusEv :=
  (st, [])

/-- Bandwidth scaling of `TopicsStats::UpdateGUIStats` (lines 557-571): the
window byte count becomes a value and a unit using decimal thresholds.  The
C++ `double` is modelled by an exact rational; the integer-to-double
conversion and both comparisons are exact for counts below `2 ^ 53`. -/
def selectBandwidth (bytes : Nat) : Rat × String :=
  if (bytes : Rat) < 1000 then ((bytes : Rat), "B/s")
  else if (bytes : Rat) < 1000000 then ((bytes : Rat) / 1000, "KB/s")
  else ((bytes : Rat) / 1000000, "MB/s")

/-- Modelled from the spec: the bandwidth unit rule stated in natural
numbers — below 1000 bytes the value stays in B/s, from 1000 up to (but
excluding) 1000000 it is divided by 1000 and shown in KB/s, otherwise it is
divided by 1000000 and shown in MB/s. -/
def bandwidthSpecRule (bytes : Nat) : Rat × String :=
  if bytes < 1000 then ((bytes : Rat), "B/s")
  else if bytes < 1000000 then ((bytes : Rat) / 1000, "KB/s")
  else ((bytes : Rat) / 1000000, "MB/s")

end GzGui

namespace GzGui

/-- Lookup on the empty mapping. -/
theorem statsLookup_nil (t : String) : statsLookup [] t = none := rfl

/-- Lookup steps through one entry at a time. -/
theorem statsLookup_cons (a : String × BasicStats) (m : StatsMap) (t : String) :
    statsLookup (a :: m) t = if a.1 = t then some a.2 else statsLookup m t := by
  by_cases h : a.1 = t <;> simp [statsLookup, List.find?_cons, h]

/-- Resetting the windows maps every lookup result through `resetEntry`. -/
theorem statsLookup_resetStats (m : StatsMap) (t : String) :
    statsLookup (resetStats m) t = (statsLookup m t).map resetEntry := by
  induction m with
  | nil => rfl
  | cons a rest ih =>
    simp only [resetStats, List.map_cons] at *
    rw [statsLookup_cons, statsLookup_cons]
    by_cases h : a.1 = t
    · simp [h]
    · simpa [h] using ih

/-- Resetting the windows leaves the key list unchanged. -/
theorem statsKeys_resetStats (m : StatsMap) : statsKeys (resetStats m) = statsKeys m := by
  induction m with
  | nil => rfl
  | cons a rest ih =>
    simp only [resetStats, statsKeys, List.map_cons] at ih ⊢
    rw [ih]

/-- C8: `ResetStats` (the spec's `ResetWindows`) keeps the tracked topic
set unchanged and, entrywise, zeroes `numMessagesLastSec` (windowMessages)
and `numBytesLastSec` (windowBytes) while leaving `numMessages`
(totalMessages) untouched. -/
theorem resetStats_spec (m : StatsMap) (t : String) :
    statsKeys (resetStats m) = statsKeys m ∧
    statsLookup (resetStats m) t = (statsLookup m t).map resetEntry ∧
    ∀ s : BasicStats, statsLookup m t = some s →
      statsLookup (resetStats m) t =
        some { numMessages := s.numMessages, numMessagesLastSec := 0, numBytesLastSec := 0 } := by
  refine ⟨statsKeys_resetStats m, statsLookup_resetStats m t, ?_⟩
  intro s hs
  rw [statsLookup_resetStats, hs]
  rfl

/-- Witness for C8 at a concrete store. -/
theorem resetStats_spec_witness :
    statsLookup (resetStats [("/foo", ⟨3, 2, 10⟩)]) "/foo" =
      some { numMessages := 3, numMessagesLastSec := 0, numBytesLastSec := 0 } :=
  (resetStats_spec [("/foo", ⟨3, 2, 10⟩)] "/foo").2.2 ⟨3, 2, 10⟩ (by decide)

/-- Rewriting the matching entries leaves every other key's lookup alone. -/
theorem statsLookup_record_map (m : StatsMap) (t u : String) (sz : Nat) (hu : ¬ u = t) :
    statsLookup (m.map (fun p => if p.1 = t then (p.1, recordStats p.2 sz) else p)) u =
      statsLookup m u := by
  have htu : ¬ t = u := fun hw => hu hw.symm
  induction m with
  | nil => rfl
  | cons a rest ih =>
    by_cases h : a.1 = t
    · simp [List.map_cons, h, statsLookup_cons, htu, ih]
    · by_cases hau : a.1 = u <;> simp [List.map_cons, h, statsLookup_cons, hau, hu, ih]

/-- Rewriting the matching entries updates the looked-up entry itself. -/
theorem statsLookup_record_map_self (m : StatsMap) (t : String) (sz : Nat) (s : BasicStats)
    (hs : statsLookup m t = some s) :
    statsLookup (m.map (fun p => if p.1 = t then (p.1, recordStats p.2 sz) else p)) t =
      some (recordStats s sz) := by
  induction m with
  | nil => simp [statsLookup] at hs
  | cons a rest ih =>
    rw [statsLookup_cons] at hs
    by_cases h : a.1 = t
    · rw [if_pos h] at hs
      have h2 : a.2 = s := Option.some.inj hs
      simp [List.map_cons, h, statsLookup_cons, h2]
    · rw [if_neg h] at hs
      simpa [List.map_cons, h, statsLookup_cons] using ih hs

/-- Updating through `onMessage` rewrites exactly the looked-up entry. -/
theorem statsLookup_onMessage_some (m : StatsMap) (t : String) (sz : Nat) (s : BasicStats)
    (hs : statsLookup m t = some s) :
    statsLookup (onMessage m t sz) t = some (recordStats s sz) := by
  unfold onMessage
  rw [hs]
  exact statsLookup_record_map_self m t sz s hs

/-- C9: a `Record` (`OnMessage`) for an untracked topic leaves the whole
store unchanged (the anomaly is only logged), and for a tracked topic it
bumps `numMessages` and `numMessagesLastSec` by one and `numBytesLastSec`
by the payload size, with `uint64_t` wrap-around; below the wrap the
increments are the exact successors the claim states. -/
theorem onMessage_spec (m : StatsMap) (t : String) (sz : Nat) :
    (statsLookup m t = none → onMessage m t sz = m) ∧
    ∀ s : BasicStats, statsLookup m t = some s →
      statsLookup (onMessage m t sz) t = some (recordStats s sz) ∧
      (s.numMessages + 1 < 2 ^ 64 →
        (recordStats s sz).numMessages = s.numMessages + 1) ∧
      (s.numMessagesLastSec + 1 < 2 ^ 64 →
        (recordStats s sz).numMessagesLastSec = s.numMessagesLastSec + 1) ∧
      (s.numBytesLastSec + sz < 2 ^ 64 →
        (recordStats s sz).numBytesLastSec = s.numBytesLastSec + sz) := by
  constructor
  · intro h
    unfold onMessage
    rw [h]
  · intro s hs
    exact ⟨statsLookup_onMessage_some m t sz s hs,
      fun h => Nat.mod_eq_of_lt h, fun h => Nat.mod_eq_of_lt h, fun h => Nat.mod_eq_of_lt h⟩

/-- Witness for C9 at a concrete store and payload. -/
theorem onMessage_spec_witness :
    statsLookup (onMessage [("/a", BasicStats.init)] "/a" 5) "/a" =
        some (recordStats BasicStats.init 5) ∧
      (recordStats BasicStats.init 5).numMessages = BasicStats.init.numMessages + 1 ∧
      (recordStats BasicStats.init 5).numBytesLastSec = BasicStats.init.numBytesLastSec + 5 :=
  ⟨((onMessage_spec [("/a", BasicStats.init)] "/a" 5).2 BasicStats.init (by decide)).1,
   ((onMessage_spec [("/a", BasicStats.init)] "/a" 5).2 BasicStats.init (by decide)).2.1
     (by decide),
   ((onMessage_spec [("/a", BasicStats.init)] "/a" 5).2 BasicStats.init (by decide)).2.2.2
     (by decide)⟩

/-- C10: `OnMessage` never changes the tracked topic set, and a delivery
for topic `t` leaves the entry of every other topic untouched. -/
theorem onMessage_frame (m : StatsMap) (t u : String) (sz : Nat) :
    statsKeys (onMessage m t sz) = statsKeys m ∧
    (u ≠ t → statsLookup (onMessage m t sz) u = statsLookup m u) := by
  constructor
  · unfold onMessage
    cases statsLookup m t with
    | none => rfl
    | some s =>
      induction m with
      | nil => rfl
      | cons a rest ih =>
        by_cases h : a.1 = t <;> simpa [statsKeys, h] using ih
  · intro hu
    unfold onMessage
    cases statsLookup m t with
    | none => rfl
    | some s => exact statsLookup_record_map m t u sz hu

/-- Witness for C10 at a concrete two-topic store. -/
theorem onMessage_frame_witness :
    statsLookup (onMessage [("/a", BasicStats.init), ("/b", ⟨5, 1, 2⟩)] "/a" 7) "/b" =
      statsLookup [("/a", BasicStats.init), ("/b", ⟨5, 1, 2⟩)] "/b" :=
  (onMessage_frame [("/a", BasicStats.init), ("/b", ⟨5, 1, 2⟩)] "/a" "/b" 7).2 (by decide)

/-- C6: the bandwidth scaling of `UpdateGUIStats` follows exactly the
decimal-threshold rule of the specification, and a window of exactly 1000
bytes lands in the KB/s branch with value 1. -/
theorem bandwidth_units_decimal (bytes : Nat) :
    selectBandwidth bytes = bandwidthSpecRule bytes ∧
    selectBandwidth 1000 = (1, "KB/s") := by
  constructor
  · have h1 : ((bytes : Rat) < 1000) ↔ bytes < 1000 := by exact_mod_cast Iff.rfl
    have h2 : ((bytes : Rat) < 1000000) ↔ bytes < 1000000 := by exact_mod_cast Iff.rfl
    unfold selectBandwidth bandwidthSpecRule
    rw [if_congr h1 rfl rfl, if_congr h2 rfl rfl]
  · unfold selectBandwidth
    norm_num

/-- C2 counterexample: with one subscribed topic in the store, destroying
the `TopicsStats` object leaves the store non-empty and performs zero
`Unsubscribe` calls, not the one call per topic the claim requires. -/
theorem destructor_unsubscribe_counterexample :
    (topicsStatsDestruct ⟨[("/a", BasicStats.init)], ["/a"]⟩).1.stats ≠ [] ∧
    ((topicsStatsDestruct ⟨[("/a", BasicStats.init)], ["/a"]⟩).2.countP
      (fun e => decide (e = BusEv.unsub "/a"))) = 0 := by
  constructor
  · intro h
    cases h
  · rfl

/-- C2 as amended: the destructor body is empty, so shutdown performs no
`Unsubscribe` call for any topic and leaves the stats store exactly as it
was; subscription teardown is left to the transport node's own
destruction, outside this code. -/
theorem destructor_no_bus_calls (st : ReconcilerState) (t : String) :
    (topicsStatsDestruct st).1 = st ∧
    ((topicsStatsDestruct st).2.countP (fun e => decide (e = BusEv.unsub t))) = 0 :=
  ⟨rfl, rfl⟩

/-- Splitting a string made of spaces yields only empty parts. -/
theorem splitOnSpace_all_space (q : List Char) (h : ∀ c ∈ q, c = ' ') :
    ∀ w ∈ splitOnSpace q, w = [] := by
  induction q with
  | nil =>
    intro w hw
    simp [splitOnSpace] at hw
    exact hw
  | cons c rest ih =>
    have hc : c = ' ' := h c (by simp)
    have hrest : ∀ d ∈ rest, d = ' ' := fun d hd => h d (by simp [hd])
    intro w hw
    rw [splitOnSpace, if_pos hc] at hw
    rcases List.mem_cons.mp hw with h1 | h2
    · exact h1
    · exact ih hrest w h2

/-- C7 counterexample: a tab character is whitespace, yet the query made of
a single tab does not match the label "x" — `filterAcceptsRow` splits on
the space character only, so the tab is kept as a one-character word that
is not contained in the label.  The claim that a whitespace-only query
matches every label is therefore false as stated. -/
theorem matches_whitespace_counterexample :
    ('\t'.isWhitespace = true) ∧ filterAcceptsRow ['\t'] ['x'] = false := by decide

/-- C7 as amended: `filterAcceptsRow` returns true exactly when every
non-empty word of the query, split on the space character U+0020 (not on
general whitespace), is a case-insensitive substring of the label; an
empty query or a query consisting only of spaces matches every label. -/
theorem filterAcceptsRow_iff_words (search label : List Char) :
    (filterAcceptsRow search label = true ↔
      ∀ w ∈ splitOnSpace search, w ≠ [] → containsCI label w = true) ∧
    ((∀ c ∈ search, c = ' ') → filterAcceptsRow search label = true) := by
  constructor
  · unfold filterAcceptsRow
    by_cases hs : search.isEmpty = true
    · rw [if_pos hs]
      have h0 : search = [] := List.isEmpty_iff.mp hs
      subst h0
      simp [splitOnSpace]
    · rw [if_neg hs, List.all_eq_true]
      constructor
      · intro h w hw hne
        have hb := h w hw
        simpa [List.isEmpty_iff, hne] using hb
      · intro h w hw
        by_cases hne : w = []
        · simp [hne]
        · simp [List.isEmpty_iff, hne, h w hw hne]
  · intro hsp
    unfold filterAcceptsRow
    by_cases hs : search.isEmpty = true
    · rw [if_pos hs]
    · rw [if_neg hs, List.all_eq_true]
      intro w hw
      simp [splitOnSpace_all_space search hsp w hw]

/-- Witness for C7 at the spec's own example query and label. -/
theorem filterAcceptsRow_iff_words_witness :
    filterAcceptsRow ("FOO BAR".toList) ("a foobar b".toList) = true :=
  ((filterAcceptsRow_iff_words "FOO BAR".toList "a foobar b".toList).1).mpr (by decide)

/-- Erasing a key answers lookups like the original map everywhere else. -/
theorem statsLookup_erase (m : StatsMap) (t u : String) :
    statsLookup (statsErase m t) u = if u = t then none else statsLookup m u := by
  induction m with
  | nil => by_cases hut : u = t <;> simp [statsErase, statsLookup, hut]
  | cons a rest ih =>
    simp only [statsErase, List.filter_cons] at ih ⊢
    by_cases hat : a.1 = t
    · have hcond : (!decide (a.1 = t)) = false := by simp [hat]
      rw [hcond, if_neg (by simp : ¬ false = true), ih, statsLookup_cons]
      by_cases hut : u = t
      · rw [if_pos hut, if_pos hut]
      · have hau : ¬ a.1 = u := by rw [hat]; exact fun hw => hut hw.symm
        rw [if_neg hut, if_neg hut, if_neg hau]
    · have hcond : (!decide (a.1 = t)) = true := by simp [hat]
      rw [hcond, if_pos rfl, statsLookup_cons, statsLookup_cons]
      by_cases hau : a.1 = u
      · have hut : ¬ u = t := by rw [← hau]; exact hat
        rw [if_neg hut, if_pos hau, if_pos hau]
      · rw [if_neg hau, if_neg hau, ih]

/-- Rewriting the entries of a present key with a fixed pair leaves other
lookups alone. -/
theorem statsLookup_setmap_other (m : StatsMap) (t : String) (v : BasicStats) (u : String)
    (hu : ¬ u = t) :
    statsLookup (m.map (fun p => if p.1 = t then (t, v) else p)) u = statsLookup m u := by
  have htu : ¬ t = u := fun hw => hu hw.symm
  induction m with
  | nil => rfl
  | cons a rest ih =>
    by_cases hat : a.1 = t
    · simp [List.map_cons, hat, statsLookup_cons, htu, ih]
    · by_cases hau : a.1 = u <;> simp [List.map_cons, hat, statsLookup_cons, hau, hu, ih]

/-- Rewriting the entries of a present key makes its lookup the new value. -/
theorem statsLookup_setmap_self (m : StatsMap) (t : String) (v : BasicStats)
    (hp : m.any (fun p => decide (p.1 = t)) = true) :
    statsLookup (m.map (fun p => if p.1 = t then (t, v) else p)) t = some v := by
  induction m with
  | nil => simp at hp
  | cons a rest ih =>
    by_cases hat : a.1 = t
    · simp [List.map_cons, hat, statsLookup_cons]
    · rw [List.any_cons] at hp
      simp only [Bool.or_eq_true, decide_eq_true_eq] at hp
      rcases hp with hp1 | hp2
      · exact absurd hp1 hat
      · simpa [List.map_cons, hat, statsLookup_cons] using ih (by simpa using hp2)

/-- A key no entry carries looks up to nothing. -/
theorem statsLookup_eq_none_of_not_any (m : StatsMap) (t : String)
    (hp : ¬ m.any (fun p => decide (p.1 = t)) = true) : statsLookup m t = none := by
  induction m with
  | nil => rfl
  | cons a rest ih =>
    rw [List.any_cons] at hp
    simp only [Bool.or_eq_true, decide_eq_true_eq, not_or] at hp
    rw [statsLookup_cons, if_neg hp.1]
    exact ih (by simpa using hp.2)

/-- Lookup passes over a first block that lacks the key. -/
theorem statsLookup_append_none (m1 m2 : StatsMap) (u : String)
    (h : statsLookup m1 u = none) : statsLookup (m1 ++ m2) u = statsLookup m2 u := by
  induction m1 with
  | nil => rfl
  | cons a rest ih =>
    rw [statsLookup_cons] at h
    by_cases hau : a.1 = u
    · rw [if_pos hau] at h
      cases h
    · rw [if_neg hau] at h
      simpa [List.cons_append, statsLookup_cons, hau] using ih h

/-- Lookup answered in the first block ignores the second. -/
theorem statsLookup_append_some (m1 m2 : StatsMap) (u : String) (s : BasicStats)
    (h : statsLookup m1 u = some s) : statsLookup (m1 ++ m2) u = some s := by
  induction m1 with
  | nil => simp [statsLookup] at h
  | cons a rest ih =>
    rw [statsLookup_cons] at h
    by_cases hau : a.1 = u
    · rw [if_pos hau] at h
      simp [List.cons_append, statsLookup_cons, hau, h]
    · rw [if_neg hau] at h
      simpa [List.cons_append, statsLookup_cons, hau] using ih h

/-- The write `stats[t] = v` makes `t` look up to `v` and leaves every
other key's lookup unchanged, whether or not `t` was present. -/
theorem statsLookup_set (m : StatsMap) (t : String) (v : BasicStats) (u : String) :
    statsLookup (statsSet m t v) u = if u = t then some v else statsLookup m u := by
  unfold statsSet
  by_cases hp : m.any (fun p => decide (p.1 = t)) = true
  · rw [if_pos hp]
    by_cases hu : u = t
    · rw [if_pos hu, hu]
      exact statsLookup_setmap_self m t v hp
    · rw [if_neg hu]
      exact statsLookup_setmap_other m t v u hu
  · rw [if_neg hp]
    have hnone : statsLookup m t = none := statsLookup_eq_none_of_not_any m t hp
    by_cases hu : u = t
    · rw [if_pos hu, hu]
      rw [statsLookup_append_none m [(t, v)] t hnone]
      simp [statsLookup_cons]
    · rw [if_neg hu]
      cases hfind : statsLookup m u with
      | none =>
        rw [statsLookup_append_none m [(t, v)] u hfind]
        have htu : ¬ t = u := fun hw => hu hw.symm
        simp [statsLookup_cons, htu, statsLookup_nil]
      | some s => exact statsLookup_append_some m [(t, v)] u s hfind

/-- Effect of the removal loop on a single key: erased exactly when the key
was previously listed and is no longer listed. -/
theorem statsLookup_removePhase (prev : List String) :
    ∀ (m : StatsMap) (topics : List String) (u : String),
      statsLookup (removePhase m prev topics) u =
        if u ∈ prev ∧ u ∉ topics then none else statsLookup m u := by
  induction prev with
  | nil => intro m topics u; simp [removePhase]
  | cons h rest ih =>
    intro m topics u
    simp only [removePhase, List.foldl_cons] at ih ⊢
    rw [ih]
    by_cases hA : u ∈ rest ∧ u ∉ topics
    · simp [hA, List.mem_cons, hA.1]
    · rw [if_neg hA]
      by_cases hB : u = h ∧ u ∉ topics
      · have hcond : u ∈ h :: rest ∧ u ∉ topics := ⟨by simp [hB.1], hB.2⟩
        rw [if_pos hcond]
        have hht : ¬ h ∈ topics := hB.1 ▸ hB.2
        rw [if_neg hht, statsLookup_erase, if_pos hB.1]
      · have hcond : ¬ (u ∈ h :: rest ∧ u ∉ topics) := by
          intro hc
          rcases List.mem_cons.mp hc.1 with h1 | h2
          · exact hB ⟨h1, hc.2⟩
          · exact hA ⟨h2, hc.2⟩
        rw [if_neg hcond]
        by_cases hht : h ∈ topics
        · rw [if_pos hht]
        · rw [if_neg hht, statsLookup_erase]
          have huh : ¬ u = h := fun hw => hB ⟨hw, hw ▸ hht⟩
          rw [if_neg huh]

/-- Effect of the addition loop on a single key: a fresh zeroed entry
exactly when the key is newly listed and its subscribe succeeded. -/
theorem statsLookup_addPhase (topics : List String) :
    ∀ (m : StatsMap) (prev : List String) (subOk : String → Bool) (u : String),
      statsLookup (addPhase m prev topics subOk) u =
        if u ∈ topics ∧ u ∉ prev ∧ subOk u = true then some BasicStats.init
        else statsLookup m u := by
  induction topics with
  | nil => intro m prev subOk u; simp [addPhase]
  | cons h rest ih =>
    intro m prev subOk u
    simp only [addPhase, List.foldl_cons] at ih ⊢
    rw [ih]
    by_cases hA : u ∈ rest ∧ u ∉ prev ∧ subOk u = true
    · simp [hA, List.mem_cons, hA.1, hA.2.1, hA.2.2]
    · rw [if_neg hA]
      by_cases hB : u = h ∧ u ∉ prev ∧ subOk u = true
      · have hcond : u ∈ h :: rest ∧ u ∉ prev ∧ subOk u = true := ⟨by simp [hB.1], hB.2⟩
        rw [if_pos hcond]
        have hhp : ¬ h ∈ prev := hB.1 ▸ hB.2.1
        have hhs : subOk h = true := hB.1 ▸ hB.2.2
        rw [if_neg hhp, if_pos hhs, statsLookup_set, if_pos hB.1]
      · have hcond : ¬ (u ∈ h :: rest ∧ u ∉ prev ∧ subOk u = true) := by
          intro hc
          rcases List.mem_cons.mp hc.1 with h1 | h2
          · exact hB ⟨h1, hc.2⟩
          · exact hA ⟨h2, hc.2⟩
        rw [if_neg hcond]
        by_cases hhp : h ∈ prev
        · rw [if_pos hhp]
        · rw [if_neg hhp]
          by_cases hhs : subOk h = true
          · rw [if_pos hhs, statsLookup_set]
            have huh : ¬ u = h := fun hw => hB ⟨hw, hw ▸ hhp, hw ▸ hhs⟩
            rw [if_neg huh]
          · rw [if_neg hhs]

/-- The reconciled previous-topic list is plainly the freshly listed set. -/
theorem fillTopics_prevTopics (st : ReconcilerState) (topics : List String)
    (subOk : String → Bool) : (fillTopics st topics subOk).prevTopics = topics := rfl

/-- Reset of the zeroed record is the zeroed record. -/
theorem resetEntry_init : resetEntry BasicStats.init = BasicStats.init := rfl

/-- Effect of one whole reconcile cycle on a single key's lookup. -/
theorem fillTopics_lookup (st : ReconcilerState) (topics : List String)
    (subOk : String → Bool) (u : String) :
    statsLookup (fillTopics st topics subOk).stats u =
      if u ∈ topics ∧ u ∉ st.prevTopics ∧ subOk u = true then some BasicStats.init
      else if u ∈ st.prevTopics ∧ u ∉ topics then none
      else (statsLookup st.stats u).map resetEntry := by
  show statsLookup (resetStats _) u = _
  rw [statsLookup_resetStats, statsLookup_addPhase, statsLookup_removePhase]
  by_cases hA : u ∈ topics ∧ u ∉ st.prevTopics ∧ subOk u = true
  · simp [hA, resetEntry_init]
  · by_cases hB : u ∈ st.prevTopics ∧ u ∉ topics
    · simp [hA, hB]
    · simp [hA, hB]

/-- C1 counterexample: subscribe to the single listed topic "/a" fails in
the first cycle, yet `FillTopics` still replaces `prevTopics` with the
full listed set, so at the start of the next cycle the topic is NOT absent
from the previous set, the next cycle attempts no `Subscribe` call at all,
and the topic still has no stats entry — against the claim that the topic
stays "added" and `Subscribe` is attempted again. -/
theorem fillTopics_retry_counterexample :
    (fillTopics initState ["/a"] (fun _ => false)).prevTopics = ["/a"] ∧
    subscribeAttempts (fillTopics initState ["/a"] (fun _ => false)).prevTopics ["/a"] = [] ∧
    statsLookup (fillTopics initState ["/a"] (fun _ => false)).stats "/a" = none := by
  refine ⟨rfl, by decide, rfl⟩

/-- C1 as amended: when `Subscribe` fails for a topic during a cycle, the
topic is skipped in that cycle (no stats entry is created), but
`prevTopics` is nevertheless replaced with the full listed set including
the failed topic; consequently the next cycle over the same listed set
does not recompute the topic as added, attempts no `Subscribe` for it, and
the topic remains without a stats entry. -/
theorem fillTopics_subscribe_failure_permanent (st : ReconcilerState) (topics : List String)
    (subOk : String → Bool) (t : String) (ht : t ∈ topics) (hfail : subOk t = false)
    (habs : statsLookup st.stats t = none) :
    statsLookup (fillTopics st topics subOk).stats t = none ∧
    (fillTopics st topics subOk).prevTopics = topics ∧
    t ∉ subscribeAttempts (fillTopics st topics subOk).prevTopics topics ∧
    ∀ g : String → Bool,
      statsLookup (fillTopics (fillTopics st topics subOk) topics g).stats t = none := by
  have h1 : statsLookup (fillTopics st topics subOk).stats t = none := by
    rw [fillTopics_lookup]
    by_cases hB : t ∈ st.prevTopics ∧ t ∉ topics
    · simp [hfail, hB]
    · simp [hfail, hB, habs]
  refine ⟨h1, rfl, ?_, ?_⟩
  · intro hmem
    rw [fillTopics_prevTopics] at hmem
    have hm2 := (List.mem_filter.mp hmem).2
    simp [ht] at hm2
  · intro g
    rw [fillTopics_lookup]
    simp [fillTopics_prevTopics, ht, h1]

/-- Witness for C1's amended statement: after the failing first cycle, a
second cycle over the same listed set (even with every subscribe
succeeding) still leaves "/a" without a stats entry. -/
theorem fillTopics_subscribe_failure_permanent_witness :
    statsLookup
      (fillTopics (fillTopics initState ["/a"] (fun _ => false)) ["/a"]
        (fun _ => true)).stats "/a" = none :=
  (fillTopics_subscribe_failure_permanent initState ["/a"] (fun _ => false) "/a"
    (by decide) rfl rfl).2.2.2 (fun _ => true)

/-- One cycle with all subscribes succeeding reconciles the tracked key set
to exactly the freshly listed topic set. -/
theorem fillTopics_isSome (st : ReconcilerState) (topics : List String) (subOk : String → Bool)
    (hinv : ∀ u, (statsLookup st.stats u).isSome = true ↔ u ∈ st.prevTopics)
    (hok : ∀ u, subOk u = true) (u : String) :
    (statsLookup (fillTopics st topics subOk).stats u).isSome = true ↔ u ∈ topics := by
  rw [fillTopics_lookup]
  by_cases hA : u ∈ topics ∧ u ∉ st.prevTopics ∧ subOk u = true
  · simp only [if_pos hA, Option.isSome_some]
    simp [hA.1]
  · by_cases hB : u ∈ st.prevTopics ∧ u ∉ topics
    · rw [if_neg hA, if_pos hB]
      simp [hB.2]
    · rw [if_neg hA, if_neg hB, Option.isSome_map']
      rw [hinv u]
      constructor
      · intro hp
        by_contra hnt
        exact hB ⟨hp, hnt⟩
      · intro htp
        by_contra hnp
        exact hA ⟨htp, hnp, hok u⟩

/-- The tracked-keys-equal-previous-topics invariant is preserved by any
run of all-subscribes-succeed cycles. -/
theorem runCycles_inv (cycles : List (List String × (String → Bool))) :
    ∀ st : ReconcilerState,
      (∀ u, (statsLookup st.stats u).isSome = true ↔ u ∈ st.prevTopics) →
      (∀ c ∈ cycles, ∀ u, c.2 u = true) →
      ∀ u, (statsLookup (runCycles st cycles).stats u).isSome = true ↔
        u ∈ (runCycles st cycles).prevTopics := by
  induction cycles with
  | nil => intro st hinv _ u; exact hinv u
  | cons c rest ih =>
    intro st hinv hok u
    refine ih (fillTopics st c.1 c.2) ?_ (fun d hd => hok d (List.mem_cons_of_mem c hd)) u
    intro w
    rw [fillTopics_prevTopics]
    exact fillTopics_isSome st c.1 c.2 hinv (hok c (List.mem_cons_self c rest)) w

/-- C4: starting from the empty state, for every sequence of cycles in
which each subscribe succeeds, after each cycle the set of tracked topics
is exactly the topic set listed by that cycle — an entry exists after
cycle i precisely when cycle i listed the topic, so entries appear in the
first cycle that lists a topic and vanish in the first that does not. -/
theorem statsStore_matches_listed_topics (cycles : List (List String × (String → Bool)))
    (hok : ∀ c ∈ cycles, ∀ u, c.2 u = true) (i : Nat) (hi : i < cycles.length) (t : String) :
    (statsLookup (runCycles initState (cycles.take (i + 1))).stats t).isSome = true ↔
      t ∈ cycles[i].1 := by
  have htake : cycles.take (i + 1) = cycles.take i ++ [cycles[i]] := by
    rw [List.take_succ, List.getElem?_eq_getElem hi]
    rfl
  rw [htake]
  show (statsLookup (List.foldl _ initState (cycles.take i ++ [cycles[i]])).stats t).isSome
      = true ↔ _
  rw [List.foldl_append]
  simp only [List.foldl_cons, List.foldl_nil]
  exact fillTopics_isSome (runCycles initState (cycles.take i)) cycles[i].1 cycles[i].2
    (runCycles_inv (cycles.take i) initState (fun u => by simp [initState, statsLookup])
      (fun c hc => hok c (List.take_subset i cycles hc)))
    (hok cycles[i] (List.getElem_mem hi)) t

/-- Witness for C4: one successful cycle listing "/a" leaves exactly "/a"
tracked. -/
theorem statsStore_matches_listed_topics_witness :
    (statsLookup (runCycles initState
      (([(["/a"], fun _ => true)] : List (List String × (String → Bool))).take (0 + 1))).stats
      "/a").isSome = true :=
  (statsStore_matches_listed_topics [(["/a"], fun _ => true)]
    (by
      intro c hc u
      rw [List.mem_singleton] at hc
      rw [hc])
    0 (by decide) "/a").mpr (by decide)

/-- A fold of the lock state over release-free actions keeps the lock
held. -/
theorem foldl_lockStep_true (l : List BusEv) (h : ∀ e ∈ l, e ≠ BusEv.release) :
    l.foldl lockStep true = true := by
  induction l with
  | nil => rfl
  | cons e rest ih =>
    have he : e ≠ BusEv.release := h e (by simp)
    have hstep : lockStep true e = true := by
      cases e <;> first
        | rfl
        | exact absurd rfl he
    rw [List.foldl_cons, hstep]
    exact ih (fun d hd => h d (by simp [hd]))

/-- C3 counterexample: with no previous topics and one listed topic "/a",
the `Subscribe` call of `FillTopics` (the third action of the trace)
executes while the stats mutex is held — the `lock_guard` of line 479 is
constructed before the subscribe loop and released only at function exit,
so the claim that subscribes run outside the critical section is false. -/
theorem subscribe_under_lock_counterexample :
    (fillTopicsEvents [] ["/a"])[2]? = some (BusEv.sub "/a") ∧
    lockHeldAt (fillTopicsEvents [] ["/a"]) 2 = true := by decide

/-- C3 as amended: during `FillTopics` only the `TopicList` query runs
before the mutex is taken; every `Subscribe` and every `Unsubscribe` call
executes while the stats mutex IS held, since the `lock_guard` spans the
whole remainder of the function. -/
theorem bus_calls_under_lock (prev topics : List String) :
    ((fillTopicsEvents prev topics)[0]? = some BusEv.listTopics ∧
      lockHeldAt (fillTopicsEvents prev topics) 0 = false) ∧
    ∀ (i : Nat) (t : String),
      ((fillTopicsEvents prev topics)[i]? = some (BusEv.sub t) ∨
        (fillTopicsEvents prev topics)[i]? = some (BusEv.unsub t)) →
      lockHeldAt (fillTopicsEvents prev topics) i = true := by
  have hsplit : fillTopicsEvents prev topics =
      BusEv.listTopics :: BusEv.acquire ::
        (((unsubscribeCalls prev topics).map BusEv.unsub ++
          (subscribeAttempts prev topics).map BusEv.sub) ++ [BusEv.release]) := by
    simp [fillTopicsEvents, List.append_assoc]
  constructor
  · exact ⟨by rw [hsplit]; rfl, rfl⟩
  · intro i t hi
    set body : List BusEv := (unsubscribeCalls prev topics).map BusEv.unsub ++
        (subscribeAttempts prev topics).map BusEv.sub with hbody
    cases i with
    | zero =>
      rw [hsplit] at hi
      simp at hi
    | succ i1 =>
      cases i1 with
      | zero =>
        rw [hsplit] at hi
        simp at hi
      | succ j =>
        have hj : j < body.length := by
          by_contra hge
          push_neg at hge
          rw [hsplit] at hi
          simp only [List.getElem?_cons_succ] at hi
          rw [List.getElem?_append_right hge] at hi
          rcases Nat.lt_or_ge (j - body.length) 1 with hlt | hge2
          · rw [Nat.lt_one_iff.mp hlt] at hi
            simp at hi
          · rw [List.getElem?_eq_none (by simpa using hge2)] at hi
            simp at hi
        rw [hsplit]
        unfold lockHeldAt
        simp only [List.take_succ_cons]
        rw [List.take_append_of_le_length (Nat.le_of_lt hj)]
        show List.foldl lockStep true (body.take j) = true
        apply foldl_lockStep_true
        intro e he
        have he2 : e ∈ body := List.take_subset j body he
        rw [hbody] at he2
        rcases List.mem_append.mp he2 with hm | hm
        · rcases List.mem_map.mp hm with ⟨x, _, hx⟩
          rw [← hx]
          intro hcon
          cases hcon
        · rcases List.mem_map.mp hm with ⟨x, _, hx⟩
          rw [← hx]
          intro hcon
          cases hcon

/-- Witness for C3's amended statement at a concrete trace. -/
theorem bus_calls_under_lock_witness :
    lockHeldAt (fillTopicsEvents [] ["/a"]) 2 = true :=
  (bus_calls_under_lock [] ["/a"]).2 2 "/a" (Or.inl (by decide))

/-- A substring starting at `a` followed by the drop at its end recovers
the drop at `a`. -/
theorem substrL_append_drop (l : List Char) (a k : Nat) :
    substrL l a k ++ l.drop (a + k) = l.drop a := by
  unfold substrL
  rw [← List.drop_drop k a l, List.take_append_drop]

/-- Same statement phrased with the absolute end position. -/
theorem substrL_append_drop2 (l : List Char) (a b : Nat) (hab : a ≤ b) :
    substrL l a (b - a) ++ l.drop b = l.drop a := by
  have h2 : a + (b - a) = b := Nat.add_sub_cancel' hab
  calc substrL l a (b - a) ++ l.drop b
      = substrL l a (b - a) ++ l.drop (a + (b - a)) := by rw [h2]
    _ = l.drop a := substrL_append_drop l a (b - a)

/-- One run peels off the front of the concatenation. -/
theorem joinRuns_cons (r : Bool × List Char) (l : List (Bool × List Char)) :
    joinRuns (r :: l) = r.2 ++ joinRuns l := rfl

/-- The paint loop started at `rp` draws exactly the suffix of the text
from `rp` on, whatever the bold entries are: its truncation logic never
duplicates and never skips a character. -/
theorem joinRuns_renderLoop (text : List Char) (bs : List (Nat × Nat)) :
    ∀ rp : Nat, joinRuns (renderLoop text bs rp) = text.drop rp := by
  induction bs with
  | nil =>
    intro rp
    unfold renderLoop
    by_cases h : rp < text.length
    · rw [if_pos h, joinRuns_cons]
      simp [joinRuns]
    · rw [if_neg h]
      simp [joinRuns, List.drop_eq_nil_of_le (Nat.le_of_not_lt h)]
  | cons b rest ih =>
    intro rp
    obtain ⟨start, len⟩ := b
    unfold renderLoop
    by_cases h1 : rp > start
    · by_cases h2 : start + len > rp
      · rw [if_pos h1, if_pos h2, joinRuns_cons, joinRuns_cons, ih (start + len)]
        show substrL text rp 0 ++ (substrL text rp (start + len - rp) ++ text.drop (start + len))
            = text.drop rp
        rw [substrL_append_drop2 text rp (start + len) (Nat.le_of_lt h2)]
        rfl
      · rw [if_pos h1, if_neg h2]
        exact ih rp
    · rw [if_neg h1]
      have hrs : rp ≤ start := Nat.le_of_not_lt h1
      rw [joinRuns_cons, joinRuns_cons, ih (start + len)]
      show substrL text rp (start - rp) ++ (substrL text start len ++ text.drop (start + len))
          = text.drop rp
      rw [substrL_append_drop text start len, substrL_append_drop2 text rp start hrs]

/-- The bold fold never drops below its accumulator. -/
theorem boldLen_foldl_ge_acc (utext : List Char) (p : Nat) (ws : List (List Char)) (acc : Nat) :
    acc ≤ ws.foldl (fun m w => if wordOccursAt utext w p then max m w.length else m) acc := by
  induction ws generalizing acc with
  | nil => exact Nat.le_refl acc
  | cons v rest ih =>
    rw [List.foldl_cons]
    by_cases h : wordOccursAt utext v p = true
    · rw [if_pos h]
      exact Nat.le_trans (Nat.le_max_left acc v.length) (ih (max acc v.length))
    · rw [if_neg h]
      exact ih acc

/-- The bold fold dominates the length of every word occurring at `p`. -/
theorem boldLen_foldl_ge_word (utext : List Char) (p : Nat) (ws : List (List Char))
    (w : List Char) (hw : w ∈ ws) (hocc : wordOccursAt utext w p = true) (acc : Nat) :
    w.length ≤ ws.foldl (fun m w2 => if wordOccursAt utext w2 p then max m w2.length else m) acc := by
  induction ws generalizing acc with
  | nil => cases hw
  | cons v rest ih =>
    rw [List.foldl_cons]
    rcases List.mem_cons.mp hw with hwv | hwr
    · rw [hwv] at hocc ⊢
      rw [if_pos hocc]
      exact Nat.le_trans (Nat.le_max_right acc v.length) (boldLen_foldl_ge_acc utext p rest _)
    · by_cases h : wordOccursAt utext v p = true
      · rw [if_pos h]
        exact ih hwr (max acc v.length)
      · rw [if_neg h]
        exact ih hwr acc

/-- The bold fold result is either the accumulator or the length of some
word occurring at `p`. -/
theorem boldLen_foldl_cases (utext : List Char) (p : Nat) (ws : List (List Char)) :
    ∀ acc : Nat,
      ws.foldl (fun m w => if wordOccursAt utext w p then max m w.length else m) acc = acc ∨
      ∃ w ∈ ws, wordOccursAt utext w p = true ∧
        ws.foldl (fun m w2 => if wordOccursAt utext w2 p then max m w2.length else m) acc
          = w.length := by
  induction ws with
  | nil => intro acc; exact Or.inl rfl
  | cons v rest ih =>
    intro acc
    rw [List.foldl_cons]
    by_cases h : wordOccursAt utext v p = true
    · rw [if_pos h]
      rcases Nat.le_total v.length acc with hle | hle
      · rw [Nat.max_eq_left hle]
        rcases ih acc with heq | ⟨w, hw, hocc, heq⟩
        · exact Or.inl heq
        · exact Or.inr ⟨w, List.mem_cons_of_mem v hw, hocc, heq⟩
      · rw [Nat.max_eq_right hle]
        rcases ih v.length with heq | ⟨w, hw, hocc, heq⟩
        · exact Or.inr ⟨v, List.mem_cons_self v rest, h, heq⟩
        · exact Or.inr ⟨w, List.mem_cons_of_mem v hw, hocc, heq⟩
    · rw [if_neg h]
      rcases ih acc with heq | ⟨w, hw, hocc, heq⟩
      · exact Or.inl heq
      · exact Or.inr ⟨w, List.mem_cons_of_mem v hw, hocc, heq⟩

/-- A non-empty word can only occur at positions inside the text. -/
theorem wordOccursAt_lt_length (utext w : List Char) (p : Nat) (hw : w ≠ [])
    (hocc : wordOccursAt utext w p = true) : p < utext.length := by
  unfold wordOccursAt at hocc
  by_contra hge
  push_neg at hge
  rw [List.drop_eq_nil_of_le hge] at hocc
  cases w with
  | nil => exact hw rfl
  | cons c cs => simp [List.isPrefixOf] at hocc

/-- Membership in the bold map, characterised: position inside the text,
value the non-zero bold length there. -/
theorem mem_boldSpans_iff (utext : List Char) (uwords : List (List Char)) (p l : Nat) :
    (p, l) ∈ boldSpans utext uwords ↔
      p < utext.length ∧ boldLenAt utext uwords p = l ∧ l ≠ 0 := by
  unfold boldSpans
  rw [List.mem_filterMap]
  constructor
  · rintro ⟨q, hq, hfq⟩
    by_cases h0 : boldLenAt utext uwords q = 0
    · rw [if_pos h0] at hfq
      cases hfq
    · rw [if_neg h0] at hfq
      have hpair : (q, boldLenAt utext uwords q) = (p, l) := Option.some.inj hfq
      have hq1 : q = p := congrArg Prod.fst hpair
      have hq2 : boldLenAt utext uwords q = l := congrArg Prod.snd hpair
      subst hq1
      exact ⟨List.mem_range.mp hq, hq2, hq2 ▸ h0⟩
  · rintro ⟨hp, hbl, hl0⟩
    refine ⟨p, List.mem_range.mpr hp, ?_⟩
    rw [if_neg (by rw [hbl]; exact hl0), hbl]

/-- A filterMap that keeps list elements as first components preserves the
strict ordering of the underlying index list. -/
theorem pairwise_keys_filterMap (f : Nat → Option (Nat × Nat))
    (hf : ∀ q x, f q = some x → x.1 = q) :
    ∀ l : List Nat, l.Pairwise (fun a b => a < b) →
      (l.filterMap f).Pairwise (fun a b => a.1 < b.1) := by
  intro l
  induction l with
  | nil => intro _; simp
  | cons a rest ih =>
    intro hp
    rw [List.pairwise_cons] at hp
    cases hfa : f a with
    | none => simpa [List.filterMap_cons, hfa] using ih hp.2
    | some x =>
      simp only [List.filterMap_cons, hfa]
      rw [List.pairwise_cons]
      refine ⟨?_, ih hp.2⟩
      intro y hy
      rcases List.mem_filterMap.mp hy with ⟨q, hq, hfq⟩
      rw [hf a x hfa, hf q y hfq]
      exact hp.1 q hq

/-- The bold map is strictly sorted by start offset: spans are emitted left
to right. -/
theorem boldSpans_pairwise (utext : List Char) (uwords : List (List Char)) :
    (boldSpans utext uwords).Pairwise (fun a b => a.1 < b.1) := by
  unfold boldSpans
  refine pairwise_keys_filterMap _ ?_ _ (List.pairwise_lt_range utext.length)
  intro q x hx
  by_cases h0 : boldLenAt utext uwords q = 0
  · rw [if_pos h0] at hx
    cases hx
  · rw [if_neg h0] at hx
    rw [← Option.some.inj hx]

/-- Every paint word is non-empty (empty words are skipped before the bold
map is built). -/
theorem paintWords_ne_nil (search : List Char) (w : List Char) (hw : w ∈ paintWords search) :
    w ≠ [] := by
  have hm := List.mem_filter.mp hw
  simpa [List.isEmpty_iff] using hm.2

/-- C5: the highlight computation of `ItemDelegate::paint` (i) renders runs
whose concatenation is exactly the label, with no character duplicated or
omitted; (ii) stores in the bold map, at each start offset where some query
word matches case-insensitively, exactly the maximum length among the words
matching there — an offset is present iff some word matches at it; and
(iii) emits the spans left to right, strictly sorted by start offset. -/
theorem highlight_runs_spec (search label : List Char) :
    joinRuns (highlightRuns search label) = label ∧
    (∀ p l : Nat,
      (p, l) ∈ boldSpans (label.map toUpperChar) (paintWords search) ↔
        ((∃ w ∈ paintWords search,
            wordOccursAt (label.map toUpperChar) w p = true ∧ w.length = l) ∧
          ∀ w ∈ paintWords search,
            wordOccursAt (label.map toUpperChar) w p = true → w.length ≤ l)) ∧
    (boldSpans (label.map toUpperChar) (paintWords search)).Pairwise
      (fun a b => a.1 < b.1) := by
  refine ⟨?_, ?_, boldSpans_pairwise _ _⟩
  · unfold highlightRuns
    rw [joinRuns_renderLoop, List.drop_zero]
  · intro p l
    rw [mem_boldSpans_iff]
    constructor
    · rintro ⟨hp, hbl, hl0⟩
      rcases boldLen_foldl_cases (label.map toUpperChar) p (paintWords search) 0 with
        heq | ⟨w, hw, hocc, heq⟩
      · exact absurd (heq.symm.trans hbl).symm hl0
      · have hwl : w.length = l := heq.symm.trans hbl
        refine ⟨⟨w, hw, hocc, hwl⟩, ?_⟩
        intro v hv hvocc
        exact hbl ▸ boldLen_foldl_ge_word (label.map toUpperChar) p (paintWords search) v hv hvocc 0
    · rintro ⟨⟨w, hw, hocc, hwl⟩, hmax⟩
      have hwne : w ≠ [] := paintWords_ne_nil search w hw
      have hp : p < (label.map toUpperChar).length :=
        wordOccursAt_lt_length (label.map toUpperChar) w p hwne hocc
      have hge : w.length ≤ boldLenAt (label.map toUpperChar) (paintWords search) p :=
        boldLen_foldl_ge_word (label.map toUpperChar) p (paintWords search) w hw hocc 0
      have hle : boldLenAt (label.map toUpperChar) (paintWords search) p ≤ l := by
        rcases boldLen_foldl_cases (label.map toUpperChar) p (paintWords search) 0 with
          heq | ⟨v, hv, hvocc, heq⟩
        · exact heq.le.trans (Nat.zero_le l)
        · exact heq.le.trans (hmax v hv hvocc)
      have hlpos : 0 < l := hwl ▸ List.length_pos.mpr hwne
      exact ⟨hp, Nat.le_antisymm hle (hwl ▸ hge), Nat.pos_iff_ne_zero.mp hlpos⟩

/-- Witness for C5 at the spec's example: query "AB" over label "ABAB"
reconstructs the label and records the span at offset 2 of length 2. -/
theorem highlight_runs_spec_witness :
    joinRuns (highlightRuns ("AB".toList) ("ABAB".toList)) = "ABAB".toList ∧
    (2, 2) ∈ boldSpans ("ABAB".toList.map toUpperChar) (paintWords ("AB".toList)) :=
  ⟨(highlight_runs_spec "AB".toList "ABAB".toList).1,
   ((highlight_runs_spec "AB".toList "ABAB".toList).2.1 2 2).mpr (by decide)⟩

end GzGui
